import Mathlib

/-!
# A shallow embedding of the `ab_testing` package

This file embeds the core of the repository — the `Variant` / `Experiment`
classes of `ab_testing/experiment.py` and the pure statistical functions of
`ab_testing/statistics.py` — as Lean definitions, and proves the specified
properties about them.

Modelling conventions:
* Python `float` arithmetic on weights and rates is embedded as exact `ℚ`
  arithmetic for the experiment module, and as `ℝ` for the statistics
  module (which calls `math.sqrt` and `scipy.stats.norm`).
* Python `int` is embedded as `ℤ`.
* Python's process-wide string `hash` is an explicit parameter
  `hash : String → ℤ` of the assignment function: within one process it is
  a fixed pure function.
* `scipy.stats.norm.cdf` / `.ppf` are explicit function parameters.
* Mutation of the in-memory object graph is embedded as explicit state
  passing: a method that mutates returns the updated object(s).
* A raised `ValueError` is embedded as `Except.error` with the message.
-/

namespace ABTesting

/-- `Variant` dataclass of `ab_testing/experiment.py`:
name, assignment weight, conversion/exposure counters and metadata. -/
structure Variant where
  name : String
  weight : ℚ := 1
  conversions : ℤ := 0
  exposures : ℤ := 0
  metadata : List (String × String) := []
  deriving Repr, DecidableEq, Inhabited

/-- `Variant.conversion_rate`: `conversions / exposures`, `0.0` when
`exposures == 0`. -/
def Variant.conversion_rate (v : Variant) : ℚ :=
  if v.exposures = 0 then 0 else (v.conversions : ℚ) / (v.exposures : ℚ)

/-- `Variant.record_exposure`: `self.exposures += 1`. -/
def Variant.record_exposure (v : Variant) : Variant :=
  { v with exposures := v.exposures + 1 }

/-- `Variant.record_conversion`: `self.conversions += 1`. -/
def Variant.record_conversion (v : Variant) : Variant :=
  { v with conversions := v.conversions + 1 }

/-- The `Experiment` object state after construction (the `created_at`
timestamp and the `_random` generator object are not part of any claim;
the generator's draws enter `assign_variant` as an explicit argument). -/
structure Experiment where
  name : String
  variants : List Variant
  deriving Repr, DecidableEq, Inhabited

/-- `sum(v.weight for v in variants)` in `Experiment.__init__`. -/
def totalWeight (vs : List Variant) : ℚ :=
  (vs.map Variant.weight).sum

/-- The weight-normalisation loop of `Experiment.__init__`:
`variant.weight = variant.weight / total_weight`. -/
def normalizeWeights (vs : List Variant) (total : ℚ) : List Variant :=
  vs.map fun v => { v with weight := v.weight / total }

/-- `Experiment.__init__`, with the mutation of the caller-supplied variant
objects made explicit: the result pairs the outcome (the constructed
experiment, or the `ValueError` message) with the state of the supplied
`Variant` objects when the constructor returns or raises.  The source
validates `len(variants) >= 2`, computes the total weight, validates
`total_weight > 0`, and only then overwrites each variant's weight. -/
def experimentInit (name : String) (vs : List Variant) :
    Except String Experiment × List Variant :=
  if vs.length < 2 then
    (.error "Experiment must have at least 2 variants", vs)
  else
    let total := totalWeight vs
    if total ≤ 0 then
      (.error "Total weight must be positive", vs)
    else
      let vs' := normalizeWeights vs total
      (.ok { name := name, variants := vs' }, vs')

/-- The deterministic draw of `Experiment.assign_variant` when a `user_id`
is given: `hash(user_id + self.name) % 10000 / 10000`, for the process's
string hash `hash`.  Python's `%` on a positive modulus agrees with
`Int.emod`. -/
def detRandVal (hash : String → ℤ) (userId name : String) : ℚ :=
  ((hash (userId ++ name) % 10000 : ℤ) : ℚ) / 10000

/-- The `for variant in self.variants` selection loop of `assign_variant`,
with the running `cumulative_weight` as the accumulator `c`: on the first
variant with `rand_val <= cumulative_weight` it records an exposure and
returns that (mutated) variant together with the updated list; `none` when
the loop falls through. -/
def assignLoop (r : ℚ) (c : ℚ) : List Variant → Option (Variant × List Variant)
  | [] => none
  | v :: rest =>
    let c' := c + v.weight
    if r ≤ c' then
      let v' := v.record_exposure
      some (v', v' :: rest)
    else
      match assignLoop r c' rest with
      | some (sel, rest') => some (sel, v :: rest')
      | none => none

/-- The fallback `self.variants[-1].record_exposure()` as a list update:
record an exposure on the last element. -/
def incrementLast : List Variant → List Variant
  | [] => []
  | [v] => [v.record_exposure]
  | v :: w :: rest => v :: incrementLast (w :: rest)

/-- The value `rand_val` that `assign_variant` buckets on: the
deterministic hash draw when a `user_id` is supplied, otherwise the value
`rng` produced by `self._random.random()` (a float in `[0, 1)`). -/
def drawnValue (hash : String → ℤ) (e : Experiment)
    (userId : Option String) (rng : ℚ) : ℚ :=
  match userId with
  | some uid => detRandVal hash uid e.name
  | none => rng

/-- `Experiment.assign_variant(user_id)`: bucket the drawn value through
the cumulative weights, falling back to `self.variants[-1]` when the loop
falls through.  Returns the assigned variant and the updated experiment;
`none` embeds the `IndexError` the fallback would raise on an
(unconstructible) empty variant list. -/
def assignVariant (hash : String → ℤ) (e : Experiment)
    (userId : Option String) (rng : ℚ) : Option (Variant × Experiment) :=
  match assignLoop (drawnValue hash e userId rng) 0 e.variants with
  | some (sel, vs') => some (sel, { e with variants := vs' })
  | none =>
    match e.variants.getLast? with
    | some v => some (v.record_exposure, { e with variants := incrementLast e.variants })
    | none => none

/-- The lookup loop of `Experiment.record_conversion`: increments the
conversion counter of the first variant named `vn` and reports `true`,
or reports `false` leaving the list unchanged. -/
def recordConvLoop (vn : String) : List Variant → Bool × List Variant
  | [] => (false, [])
  | v :: rest =>
    if v.name = vn then (true, v.record_conversion :: rest)
    else
      let p := recordConvLoop vn rest
      (p.1, v :: p.2)

/-- `Experiment.record_conversion(variant_name)`: the returned boolean and
the updated experiment state. -/
def Experiment.recordConversion (e : Experiment) (vn : String) :
    Bool × Experiment :=
  let p := recordConvLoop vn e.variants
  (p.1, { e with variants := p.2 })

/-- The index the selection loop of `assign_variant` stops at, as a pure
function of the drawn value, the running cumulative weight and the weight
list: the first index whose cumulative weight reaches `r`. -/
def selectIdx (r : ℚ) (c : ℚ) : List ℚ → Option ℕ
  | [] => none
  | w :: ws =>
    if r ≤ c + w then some 0
    else (selectIdx r (c + w) ws).map (· + 1)

/-- Spec-side description of the bucketing rule, written from the spec's
words: the first variant (in list order) whose cumulative normalized
weight is `≥` the drawn value. -/
def firstBucketIdx (r : ℚ) (ws : List ℚ) : Option ℕ :=
  (List.range ws.length).find? fun i => r ≤ ((ws.take (i + 1)).sum)

/-! ## `ab_testing/statistics.py` -/

/-- `p_pooled = (conversions_a + conversions_b) / (exposures_a + exposures_b)`
in `z_test_proportions`. -/
noncomputable def pooledProportion (ca cb ea eb : ℤ) : ℝ :=
  ((ca : ℝ) + (cb : ℝ)) / ((ea : ℝ) + (eb : ℝ))

/-- `p_pooled * (1 - p_pooled) * (1/exposures_a + 1/exposures_b)`: the
argument `z_test_proportions` hands to `math.sqrt` when it computes the
standard error.  It is negative exactly when `p_pooled` lies outside
`[0, 1]` (e.g. for negative conversion counts). -/
noncomputable def pooledSqArg (ca cb ea eb : ℤ) : ℝ :=
  pooledProportion ca cb ea eb * (1 - pooledProportion ca cb ea eb) *
    (1 / (ea : ℝ) + 1 / (eb : ℝ))

/-- The pooled-proportion standard error
`se = math.sqrt(p_pooled * (1 - p_pooled) * (1/exposures_a + 1/exposures_b))`
of `z_test_proportions`: the value `math.sqrt` returns on the branch where
its argument is non-negative.  On a negative argument Python's `math.sqrt`
raises `ValueError: math domain error` instead, and `z_test_proportions`
models that raise explicitly before taking the square root. -/
noncomputable def pooledStdError (ca cb ea eb : ℤ) : ℝ :=
  Real.sqrt (pooledSqArg ca cb ea eb)

/-- `z_test_proportions(conversions_a, exposures_a, conversions_b, exposures_b,
two_tailed)`, with `scipy.stats.norm.cdf` as the parameter `cdf`.  Returns
`(z_score, p_value, se)` or the raised error: the explicit `ValueError` on
a non-positive exposure count, or the `ValueError: math domain error` that
`math.sqrt` raises when its argument is negative. -/
noncomputable def z_test_proportions (cdf : ℝ → ℝ) (ca ea cb eb : ℤ)
    (two_tailed : Bool) : Except String (ℝ × ℝ × ℝ) :=
  if ea ≤ 0 ∨ eb ≤ 0 then .error "Exposures must be positive"
  else if pooledSqArg ca cb ea eb < 0 then .error "math domain error"
  else
    let p_a : ℝ := (ca : ℝ) / (ea : ℝ)
    let p_b : ℝ := (cb : ℝ) / (eb : ℝ)
    let se := pooledStdError ca cb ea eb
    if se = 0 then .ok (0, 1, 0)
    else
      let z_score := (p_a - p_b) / se
      let p_value : ℝ :=
        if two_tailed then 2 * (1 - cdf |z_score|) else 1 - cdf z_score
      .ok (z_score, p_value, se)

/-- `calculate_confidence_interval(conversions, exposures, confidence_level)`
— the Wilson score interval — with `scipy.stats.norm.ppf` as the parameter
`ppf`.  Returns the clamped `(lower, upper)` bounds or the `ValueError`
message. -/
noncomputable def calculate_confidence_interval (ppf : ℝ → ℝ)
    (conversions exposures : ℤ) (confidence_level : ℝ) :
    Except String (ℝ × ℝ) :=
  if exposures ≤ 0 then .error "Exposures must be positive"
  else if conversions < 0 ∨ conversions > exposures then
    .error "Conversions must be between 0 and exposures"
  else if ¬(0 < confidence_level ∧ confidence_level < 1) then
    .error "Confidence level must be between 0 and 1"
  else
    let p : ℝ := (conversions : ℝ) / (exposures : ℝ)
    let n : ℝ := (exposures : ℝ)
    let z := ppf (1 - (1 - confidence_level) / 2)
    let z_squared := z ^ 2
    let denominator := 1 + z_squared / n
    let center := (p + z_squared / (2 * n)) / denominator
    let margin :=
      z * Real.sqrt (p * (1 - p) / n + z_squared / (4 * n ^ 2)) / denominator
    .ok (max 0 (center - margin), min 1 (center + margin))

/-- `is_statistically_significant(p_value, alpha)`: strict comparison
`p_value < alpha`. -/
def is_statistically_significant (p_value alpha : ℚ) : Bool :=
  decide (p_value < alpha)

/-! ## Helper lemmas -/

lemma sum_map_div (l : List ℚ) (q : ℚ) :
    (l.map fun x => x / q).sum = l.sum / q := by
  induction l with
  | nil => simp
  | cons a t ih => simp [ih, add_div]

lemma normalizeWeights_map_weight (vs : List Variant) (total : ℚ) :
    (normalizeWeights vs total).map Variant.weight =
      (vs.map Variant.weight).map fun w => w / total := by
  simp [normalizeWeights]

lemma normalizeWeights_map_name (vs : List Variant) (total : ℚ) :
    (normalizeWeights vs total).map Variant.name = vs.map Variant.name := by
  simp [normalizeWeights]

lemma experimentInit_ok_iff (name : String) (vs : List Variant) (e : Experiment) :
    (experimentInit name vs).1 = .ok e ↔
      2 ≤ vs.length ∧ 0 < totalWeight vs ∧
      e = { name := name, variants := normalizeWeights vs (totalWeight vs) } := by
  simp only [experimentInit]
  split_ifs with h1 h2
  · constructor
    · intro h
      exact absurd h (by simp)
    · rintro ⟨hlen, -, -⟩
      omega
  · constructor
    · intro h
      exact absurd h (by simp)
    · rintro ⟨-, hpos, -⟩
      exact absurd hpos (by linarith)
  · simp only [Except.ok.injEq]
    constructor
    · intro h
      exact ⟨by omega, by linarith, h.symm⟩
    · rintro ⟨-, -, h⟩
      exact h.symm

lemma experimentInit_ok_sum_one (name : String) (vs : List Variant) (e : Experiment)
    (h : (experimentInit name vs).1 = .ok e) :
    (e.variants.map Variant.weight).sum = 1 := by
  obtain ⟨-, hpos, he⟩ := (experimentInit_ok_iff name vs e).mp h
  subst he
  simp only [normalizeWeights_map_weight, sum_map_div]
  exact div_self (ne_of_gt hpos)

/-! ## Theorems for the claims about construction and counters -/

/-- Claim C4 — `Variant.conversion_rate` is `conversions / exposures`,
is `0` when `exposures = 0`, and lies in `[0, 1]` whenever
`0 ≤ conversions ≤ exposures`. -/
theorem conversion_rate_spec (v : Variant)
    (h0 : 0 ≤ v.conversions) (h1 : v.conversions ≤ v.exposures) :
    v.conversion_rate =
      (if v.exposures = 0 then 0 else (v.conversions : ℚ) / (v.exposures : ℚ)) ∧
    0 ≤ v.conversion_rate ∧ v.conversion_rate ≤ 1 := by
  refine ⟨rfl, ?_, ?_⟩ <;> unfold Variant.conversion_rate <;> split_ifs with h
  · exact le_refl 0
  · have he : (0 : ℚ) < (v.exposures : ℚ) := by
      have : 0 < v.exposures := lt_of_le_of_ne (le_trans h0 h1) (Ne.symm h)
      exact_mod_cast this
    have hc : (0 : ℚ) ≤ (v.conversions : ℚ) := by exact_mod_cast h0
    exact div_nonneg hc he.le
  · exact zero_le_one
  · have he : (0 : ℚ) < (v.exposures : ℚ) := by
      have : 0 < v.exposures := lt_of_le_of_ne (le_trans h0 h1) (Ne.symm h)
      exact_mod_cast this
    rw [div_le_one he]
    exact_mod_cast h1

/-- Witness for C4 at a concrete variant: 1 conversion over 2 exposures. -/
theorem conversion_rate_spec_witness :
    (Variant.mk "a" 1 1 2 []).conversion_rate =
      (if (Variant.mk "a" 1 1 2 []).exposures = 0 then 0
       else ((Variant.mk "a" 1 1 2 []).conversions : ℚ) /
         ((Variant.mk "a" 1 1 2 []).exposures : ℚ)) ∧
    0 ≤ (Variant.mk "a" 1 1 2 []).conversion_rate ∧
    (Variant.mk "a" 1 1 2 []).conversion_rate ≤ 1 :=
  conversion_rate_spec (Variant.mk "a" 1 1 2 []) (by decide) (by decide)

/-- Claim C9 — `is_statistically_significant` is the strict comparison
`p_value < alpha`; at the boundary `0.05, 0.05` it is `false`. -/
theorem is_statistically_significant_spec (p alpha : ℚ) :
    (is_statistically_significant p alpha = true ↔ p < alpha) ∧
    is_statistically_significant (5/100) (5/100) = false := by
  exact ⟨by simp [is_statistically_significant], by simp [is_statistically_significant]⟩

/-- Claim C5 — `Experiment.__init__` raises a `ValueError` exactly when
fewer than 2 variants are supplied or the total supplied weight is
non-positive; on any list of length `≥ 2` with positive total weight it
returns an experiment. -/
theorem experimentInit_fails_iff (name : String) (vs : List Variant) :
    ((∃ msg, (experimentInit name vs).1 = .error msg) ↔
      vs.length < 2 ∨ totalWeight vs ≤ 0) ∧
    (2 ≤ vs.length → 0 < totalWeight vs →
      ∃ e, (experimentInit name vs).1 = .ok e) := by
  constructor
  · simp only [experimentInit]
    split_ifs with h1 h2
    · exact iff_of_true ⟨_, rfl⟩ (Or.inl h1)
    · exact iff_of_true ⟨_, rfl⟩ (Or.inr h2)
    · constructor
      · rintro ⟨msg, hmsg⟩
        exact absurd hmsg (by simp)
      · intro h
        rcases h with h | h
        · exact absurd h h1
        · exact absurd h h2
  · intro hlen hpos
    exact ⟨_, (experimentInit_ok_iff name vs _).mpr ⟨hlen, hpos, rfl⟩⟩

/-- Claim C10 — when construction fails, the caller-supplied variant
objects are returned unmodified: normalisation happens only after both
validation checks pass. -/
theorem experimentInit_error_preserves_variants (name : String)
    (vs : List Variant) (msg : String)
    (h : (experimentInit name vs).1 = .error msg) :
    (experimentInit name vs).2 = vs := by
  simp only [experimentInit] at h ⊢
  split_ifs at h ⊢ with h1 h2
  all_goals rfl

/-- Witness for C10 at a concrete failing input: a single-variant list is
rejected and handed back unchanged. -/
theorem experimentInit_error_preserves_variants_witness :
    (experimentInit "exp" [Variant.mk "a" 1 0 0 []]).2 =
      [Variant.mk "a" 1 0 0 []] :=
  experimentInit_error_preserves_variants "exp" [Variant.mk "a" 1 0 0 []]
    "Experiment must have at least 2 variants" (by rfl)

/-- Counterexample to claim C2 as stated: the constructor accepts weights
`-1` and `3` (their total `2` is positive), and the first normalized
weight comes out `-1/2`, which is not positive. -/
theorem experimentInit_weight_positive_cex :
    ((experimentInit "e"
        [Variant.mk "a" (-1) 0 0 [], Variant.mk "b" 3 0 0 []]).1 =
      .ok (Experiment.mk "e"
        [Variant.mk "a" (-(1/2)) 0 0 [], Variant.mk "b" (3/2) 0 0 []])) ∧
    ¬ (0 : ℚ) < -(1/2) := by
  constructor
  · norm_num [experimentInit, totalWeight, normalizeWeights]
  · norm_num

/-- Claim C2 (amended) — after a successful construction the variant
weights sum to exactly `1`; they are moreover all positive whenever every
supplied weight was positive. -/
theorem experimentInit_weights_normalized (name : String) (vs : List Variant)
    (e : Experiment) (h : (experimentInit name vs).1 = .ok e) :
    (e.variants.map Variant.weight).sum = 1 ∧
    ((∀ v ∈ vs, 0 < v.weight) → ∀ v ∈ e.variants, 0 < v.weight) := by
  refine ⟨experimentInit_ok_sum_one name vs e h, ?_⟩
  obtain ⟨-, hpos, he⟩ := (experimentInit_ok_iff name vs e).mp h
  subst he
  intro hall v hv
  simp only [normalizeWeights, List.mem_map] at hv
  obtain ⟨w, hw, rfl⟩ := hv
  exact div_pos (hall w hw) hpos

/-- Witness for the amended C2 at a concrete input: weights `1` and `3`
normalize to `1/4` and `3/4`. -/
theorem experimentInit_weights_normalized_witness :
    (((Experiment.mk "e"
        [Variant.mk "a" (1/4) 0 0 [], Variant.mk "b" (3/4) 0 0 []]).variants.map
          Variant.weight).sum = 1) ∧
    ((∀ v ∈ [Variant.mk "a" 1 0 0 [], Variant.mk "b" 3 0 0 []], 0 < v.weight) →
      ∀ v ∈ (Experiment.mk "e"
        [Variant.mk "a" (1/4) 0 0 [], Variant.mk "b" (3/4) 0 0 []]).variants,
        0 < v.weight) :=
  experimentInit_weights_normalized "e"
    [Variant.mk "a" 1 0 0 [], Variant.mk "b" 3 0 0 []]
    (Experiment.mk "e" [Variant.mk "a" (1/4) 0 0 [], Variant.mk "b" (3/4) 0 0 []])
    (by norm_num [experimentInit, totalWeight, normalizeWeights])

/-! ## The selection loop of `assign_variant` -/

lemma find?_range_eq_some (p : ℕ → Bool) (n i : ℕ) :
    (List.range n).find? p = some i ↔
      i < n ∧ p i = true ∧ ∀ j < i, ¬ p j = true := by
  induction n generalizing p i with
  | zero => simp
  | succ n ih =>
    rw [List.range_succ_eq_map, List.find?_cons]
    cases hp : p 0 with
    | true =>
      cases i with
      | zero =>
        simp only [Option.some.injEq]
        exact iff_of_true trivial ⟨Nat.succ_pos n, hp, fun j hj => absurd hj (Nat.not_lt_zero j)⟩
      | succ i =>
        constructor
        · intro h
          exact absurd (Option.some.inj h) (Nat.succ_ne_zero i).symm
        · rintro ⟨-, -, hall⟩
          exact absurd hp (by simpa using hall 0 (Nat.succ_pos i))
    | false =>
      rw [List.find?_map]
      simp only [Option.map_eq_some', ih, Function.comp]
      cases i with
      | zero =>
        constructor
        · rintro ⟨a, -, ha⟩
          exact absurd ha (Nat.succ_ne_zero a)
        · rintro ⟨-, h0, -⟩
          exact absurd h0 (by simp [hp])
      | succ i =>
        constructor
        · rintro ⟨a, ⟨hlt, hpa, hall⟩, ha⟩
          obtain rfl : a = i := Nat.succ.inj ha
          refine ⟨Nat.succ_lt_succ hlt, hpa, ?_⟩
          intro j hj
          cases j with
          | zero => simp [hp]
          | succ j => exact hall j (Nat.lt_of_succ_lt_succ hj)
        · rintro ⟨hlt, hpi, hall⟩
          refine ⟨i, ⟨Nat.lt_of_succ_lt_succ hlt, hpi, ?_⟩, rfl⟩
          intro j hj
          exact hall (j + 1) (Nat.succ_lt_succ hj)

lemma firstBucketIdx_eq_some_iff (r : ℚ) (ws : List ℚ) (i : ℕ) :
    firstBucketIdx r ws = some i ↔
      i < ws.length ∧ r ≤ ((ws.take (i + 1)).sum) ∧
      ∀ j < i, ¬ r ≤ ((ws.take (j + 1)).sum) := by
  unfold firstBucketIdx
  rw [find?_range_eq_some]
  simp

lemma selectIdx_eq_some_iff (r : ℚ) (ws : List ℚ) : ∀ (c : ℚ) (i : ℕ),
    selectIdx r c ws = some i ↔
      i < ws.length ∧ r ≤ c + ((ws.take (i + 1)).sum) ∧
      ∀ j < i, ¬ r ≤ c + ((ws.take (j + 1)).sum) := by
  induction ws with
  | nil => intro c i; simp [selectIdx]
  | cons w ws ih =>
    intro c i
    simp only [selectIdx]
    by_cases hr : r ≤ c + w
    · rw [if_pos hr]
      cases i with
      | zero =>
        simp only [Option.some.injEq]
        refine iff_of_true trivial ⟨Nat.succ_pos _, by simpa using hr, ?_⟩
        intro j hj
        exact absurd hj (Nat.not_lt_zero j)
      | succ i =>
        constructor
        · intro h
          exact absurd (Option.some.inj h) (Nat.succ_ne_zero i).symm
        · rintro ⟨-, -, hall⟩
          exact absurd (by simpa using hr) (hall 0 (Nat.succ_pos i))
    · rw [if_neg hr]
      simp only [Option.map_eq_some']
      cases i with
      | zero =>
        constructor
        · rintro ⟨a, -, ha⟩
          exact absurd ha (Nat.succ_ne_zero a)
        · rintro ⟨-, h0, -⟩
          exact absurd (by simpa using h0) hr
      | succ i =>
        constructor
        · rintro ⟨a, ha, haeq⟩
          obtain rfl : a = i := Nat.succ.inj haeq
          obtain ⟨hlt, hle, hall⟩ := (ih (c + w) a).mp ha
          refine ⟨Nat.succ_lt_succ hlt, by simpa [add_assoc] using hle, ?_⟩
          intro j hj
          cases j with
          | zero => simpa using hr
          | succ j =>
            have := hall j (Nat.lt_of_succ_lt_succ hj)
            simpa [add_assoc] using this
        · rintro ⟨hlt, hle, hall⟩
          refine ⟨i, (ih (c + w) i).mpr
            ⟨Nat.lt_of_succ_lt_succ hlt, by simpa [add_assoc] using hle, ?_⟩, rfl⟩
          intro j hj
          have := hall (j + 1) (Nat.succ_lt_succ hj)
          simpa [add_assoc] using this

lemma selectIdx_eq_none_iff (r : ℚ) (ws : List ℚ) : ∀ (c : ℚ),
    selectIdx r c ws = none ↔
      ∀ j < ws.length, ¬ r ≤ c + ((ws.take (j + 1)).sum) := by
  induction ws with
  | nil => intro c; simp [selectIdx]
  | cons w ws ih =>
    intro c
    simp only [selectIdx]
    by_cases hr : r ≤ c + w
    · rw [if_pos hr]
      constructor
      · intro h
        exact absurd h (by simp)
      · intro hall
        exact absurd (by simpa using hr) (hall 0 (Nat.succ_pos _))
    · rw [if_neg hr]
      rw [Option.map_eq_none', ih (c + w)]
      constructor
      · intro hall j hj
        cases j with
        | zero => simpa using hr
        | succ j =>
          have := hall j (Nat.lt_of_succ_lt_succ hj)
          simpa [add_assoc] using this
      · intro hall j hj
        have := hall (j + 1) (Nat.succ_lt_succ hj)
        simpa [add_assoc] using this

lemma selectIdx_zero_eq_firstBucketIdx (r : ℚ) (ws : List ℚ) :
    selectIdx r 0 ws = firstBucketIdx r ws := by
  cases h : selectIdx r 0 ws with
  | none =>
    have hall := (selectIdx_eq_none_iff r ws 0).mp h
    symm
    rw [Option.eq_none_iff_forall_not_mem]
    intro i hi
    rw [Option.mem_def, firstBucketIdx_eq_some_iff] at hi
    exact absurd (by simpa using hi.2.1) (by simpa using hall i hi.1)
  | some i =>
    obtain ⟨hlt, hle, hall⟩ := (selectIdx_eq_some_iff r ws 0 i).mp h
    symm
    rw [firstBucketIdx_eq_some_iff]
    refine ⟨hlt, by simpa using hle, ?_⟩
    intro j hj
    have := hall j hj
    simpa using this

lemma assignLoop_eq_selectIdx (r : ℚ) (vs : List Variant) : ∀ c : ℚ,
    assignLoop r c vs = (selectIdx r c (vs.map Variant.weight)).map
      fun i => ((vs.getD i default).record_exposure,
                vs.set i ((vs.getD i default).record_exposure)) := by
  induction vs with
  | nil =>
    intro c
    simp [assignLoop, selectIdx]
  | cons v vs ih =>
    intro c
    simp only [assignLoop, List.map_cons, selectIdx]
    by_cases hr : r ≤ c + v.weight
    · rw [if_pos hr, if_pos hr]
      simp
    · rw [if_neg hr, if_neg hr]
      rw [ih (c + v.weight)]
      cases h : selectIdx r (c + v.weight) (vs.map Variant.weight) with
      | none => simp
      | some i => simp

lemma incrementLast_eq_set (vs : List Variant) (hne : vs ≠ []) :
    incrementLast vs = vs.set (vs.length - 1)
      ((vs.getD (vs.length - 1) default).record_exposure) := by
  induction vs with
  | nil => exact absurd rfl hne
  | cons v vs ih =>
    cases vs with
    | nil => simp [incrementLast]
    | cons w ws =>
      show v :: incrementLast (w :: ws) = _
      rw [ih (by simp)]
      simp [List.length_cons]

lemma getLast?_eq_some_getD (vs : List Variant) (hne : vs ≠ []) :
    vs.getLast? = some (vs.getD (vs.length - 1) default) := by
  rw [List.getLast?_eq_getLast vs hne, List.getLast_eq_getElem,
    List.getD_eq_getElem]

lemma getD_name_eq_of_map_name_eq (l₁ l₂ : List Variant)
    (h : l₁.map Variant.name = l₂.map Variant.name) (i : ℕ)
    (hi : i < l₁.length) :
    (l₁.getD i default).name = (l₂.getD i default).name := by
  have hlen : l₁.length = l₂.length := by
    have := congrArg List.length h
    simpa using this
  have hq : (l₁.map Variant.name)[i]? = (l₂.map Variant.name)[i]? := by
    rw [h]
  rw [List.getElem?_map, List.getElem?_map] at hq
  rw [List.getD_eq_getElem l₁ default hi, List.getD_eq_getElem l₂ default (hlen ▸ hi)]
  rw [List.getElem?_eq_getElem hi, List.getElem?_eq_getElem (hlen ▸ hi)] at hq
  simpa using hq

/-! ## The conversion-recording loop -/

lemma recordConvLoop_not_found (vn : String) (vs : List Variant)
    (h : ∀ v ∈ vs, v.name ≠ vn) : recordConvLoop vn vs = (false, vs) := by
  induction vs with
  | nil => rfl
  | cons v rest ih =>
    simp only [recordConvLoop]
    rw [if_neg (h v (List.mem_cons_self v rest)),
      ih fun w hw => h w (List.mem_cons_of_mem v hw)]

lemma recordConvLoop_fst_iff (vn : String) (vs : List Variant) :
    (recordConvLoop vn vs).1 = true ↔ ∃ v ∈ vs, v.name = vn := by
  induction vs with
  | nil => simp [recordConvLoop]
  | cons v rest ih =>
    simp only [recordConvLoop]
    by_cases hv : v.name = vn
    · rw [if_pos hv]
      simpa using Or.inl hv
    · rw [if_neg hv]
      simp only [List.mem_cons, exists_eq_or_imp]
      rw [← ih]
      simp [hv]

lemma recordConvLoop_found (vn : String) (vs : List Variant) : ∀ i : ℕ,
    i < vs.length → (vs.getD i default).name = vn →
    (∀ j < i, (vs.getD j default).name ≠ vn) →
    recordConvLoop vn vs =
      (true, vs.set i ((vs.getD i default).record_conversion)) := by
  induction vs with
  | nil =>
    intro i hi
    exact absurd hi (by simp)
  | cons v rest ih =>
    intro i hi hname hfirst
    cases i with
    | zero =>
      simp only [List.getD_cons_zero] at hname ⊢
      simp only [recordConvLoop, if_pos hname, List.set_cons_zero]
    | succ i =>
      have hv : v.name ≠ vn := by simpa using hfirst 0 (Nat.succ_pos i)
      simp only [recordConvLoop, if_neg hv]
      rw [ih i (by simpa using hi) (by simpa using hname)
        fun j hj => by simpa using hfirst (j + 1) (Nat.succ_lt_succ hj)]
      simp

lemma getD_set_self (l : List Variant) (i : ℕ) (a : Variant)
    (h : i < l.length) : (l.set i a).getD i default = a := by
  rw [List.getD_eq_getElem?_getD, List.getElem?_set_self']
  simp [List.getElem?_eq_getElem h]

lemma getD_set_ne (l : List Variant) (i j : ℕ) (a : Variant) (h : i ≠ j) :
    (l.set i a).getD j default = l.getD j default := by
  rw [List.getD_eq_getElem?_getD, List.getElem?_set_ne h,
    ← List.getD_eq_getElem?_getD]

/-- Claim C8 — `record_conversion(variant_name)` returns `true` and bumps
the conversion counter of the (first) variant with that name by exactly 1
when such a variant exists; it returns `false` and leaves the experiment
unchanged when no variant has that name. -/
theorem record_conversion_spec (e : Experiment) (vn : String) :
    ((e.recordConversion vn).1 = true ↔ ∃ v ∈ e.variants, v.name = vn) ∧
    ((∀ v ∈ e.variants, v.name ≠ vn) → e.recordConversion vn = (false, e)) ∧
    (∀ i, i < e.variants.length → (e.variants.getD i default).name = vn →
      (∀ j < i, (e.variants.getD j default).name ≠ vn) →
      (e.recordConversion vn).1 = true ∧
      (e.recordConversion vn).2.variants =
        e.variants.set i ((e.variants.getD i default).record_conversion) ∧
      ((e.recordConversion vn).2.variants.getD i default).conversions =
        (e.variants.getD i default).conversions + 1 ∧
      ∀ j, j ≠ i →
        (e.recordConversion vn).2.variants.getD j default =
          e.variants.getD j default) := by
  refine ⟨?_, ?_, ?_⟩
  · exact recordConvLoop_fst_iff vn e.variants
  · intro h
    show (_, _) = _
    rw [recordConvLoop_not_found vn e.variants h]
  · intro i hi hname hfirst
    have hloop := recordConvLoop_found vn e.variants i hi hname hfirst
    simp only [Experiment.recordConversion, hloop]
    refine ⟨trivial, trivial, ?_, ?_⟩
    · rw [getD_set_self e.variants i _ hi]
      rfl
    · intro j hj
      exact getD_set_ne e.variants i j _ (Ne.symm hj)

/-- Claim C3 — `assign_variant` is total on any experiment with at least
one variant and performs exactly one exposure increment: it returns the
variant at some index `i` with its exposure counter bumped by exactly 1
(its conversion counter untouched), updates only position `i` of the
variant list, and selects the last variant in list order whenever the
drawn value exceeds every cumulative weight boundary. -/
theorem assign_variant_total (hash : String → ℤ) (e : Experiment)
    (userId : Option String) (rng : ℚ) (hne : e.variants ≠ []) :
    ∃ sel st i, assignVariant hash e userId rng = some (sel, st) ∧
      i < e.variants.length ∧
      sel = (e.variants.getD i default).record_exposure ∧
      sel.exposures = (e.variants.getD i default).exposures + 1 ∧
      sel.conversions = (e.variants.getD i default).conversions ∧
      st.name = e.name ∧
      st.variants = e.variants.set i sel ∧
      (∀ j, j ≠ i → st.variants.getD j default = e.variants.getD j default) ∧
      ((∀ j < e.variants.length,
          ¬ drawnValue hash e userId rng ≤
            ((e.variants.map Variant.weight).take (j + 1)).sum) →
        i = e.variants.length - 1) := by
  cases h : selectIdx (drawnValue hash e userId rng) 0 (e.variants.map Variant.weight) with
  | some i =>
    obtain ⟨hlt, hle, -⟩ :=
      (selectIdx_eq_some_iff (drawnValue hash e userId rng)
        (e.variants.map Variant.weight) 0 i).mp h
    rw [List.length_map] at hlt
    refine ⟨(e.variants.getD i default).record_exposure,
      ⟨e.name, e.variants.set i ((e.variants.getD i default).record_exposure)⟩,
      i, ?_, hlt, rfl, rfl, rfl, rfl, rfl, ?_, ?_⟩
    · unfold assignVariant
      rw [assignLoop_eq_selectIdx, h]
      rfl
    · intro j hj
      exact getD_set_ne _ i j _ (Ne.symm hj)
    · intro hall
      exact absurd (by simpa using hle) (hall i hlt)
  | none =>
    have hall := (selectIdx_eq_none_iff (drawnValue hash e userId rng)
      (e.variants.map Variant.weight) 0).mp h
    have hlen : 0 < e.variants.length := List.length_pos.mpr hne
    refine ⟨(e.variants.getD (e.variants.length - 1) default).record_exposure,
      ⟨e.name, e.variants.set (e.variants.length - 1)
        ((e.variants.getD (e.variants.length - 1) default).record_exposure)⟩,
      e.variants.length - 1, ?_, by omega, rfl, rfl, rfl, rfl, rfl, ?_,
      fun _ => rfl⟩
    · unfold assignVariant
      rw [assignLoop_eq_selectIdx, h, getLast?_eq_some_getD e.variants hne,
        incrementLast_eq_set e.variants hne]
      rfl
    · intro j hj
      exact getD_set_ne _ _ j _ (Ne.symm hj)

/-- Witness for C3 at a concrete input: a two-variant experiment, no
subject id, generator draw `1/4`. -/
theorem assign_variant_total_witness :
    ∃ sel st i, assignVariant (fun _ => 0)
        (Experiment.mk "exp"
          [Variant.mk "a" (1/2) 0 0 [], Variant.mk "b" (1/2) 0 0 []])
        none (1/4) = some (sel, st) ∧
      i < (Experiment.mk "exp"
          [Variant.mk "a" (1/2) 0 0 [], Variant.mk "b" (1/2) 0 0 []]).variants.length ∧
      sel = ((Experiment.mk "exp"
          [Variant.mk "a" (1/2) 0 0 [], Variant.mk "b" (1/2) 0 0 []]).variants.getD i
            default).record_exposure ∧
      sel.exposures = ((Experiment.mk "exp"
          [Variant.mk "a" (1/2) 0 0 [], Variant.mk "b" (1/2) 0 0 []]).variants.getD i
            default).exposures + 1 ∧
      sel.conversions = ((Experiment.mk "exp"
          [Variant.mk "a" (1/2) 0 0 [], Variant.mk "b" (1/2) 0 0 []]).variants.getD i
            default).conversions ∧
      st.name = (Experiment.mk "exp"
          [Variant.mk "a" (1/2) 0 0 [], Variant.mk "b" (1/2) 0 0 []]).name ∧
      st.variants = (Experiment.mk "exp"
          [Variant.mk "a" (1/2) 0 0 [], Variant.mk "b" (1/2) 0 0 []]).variants.set i sel ∧
      (∀ j, j ≠ i → st.variants.getD j default =
        (Experiment.mk "exp"
          [Variant.mk "a" (1/2) 0 0 [], Variant.mk "b" (1/2) 0 0 []]).variants.getD j
            default) ∧
      ((∀ j < (Experiment.mk "exp"
          [Variant.mk "a" (1/2) 0 0 [], Variant.mk "b" (1/2) 0 0 []]).variants.length,
          ¬ drawnValue (fun _ => 0)
            (Experiment.mk "exp"
              [Variant.mk "a" (1/2) 0 0 [], Variant.mk "b" (1/2) 0 0 []]) none (1/4) ≤
            (((Experiment.mk "exp"
              [Variant.mk "a" (1/2) 0 0 [], Variant.mk "b" (1/2) 0 0 []]).variants.map
                Variant.weight).take (j + 1)).sum) →
        i = (Experiment.mk "exp"
          [Variant.mk "a" (1/2) 0 0 [], Variant.mk "b" (1/2) 0 0 []]).variants.length - 1) :=
  assign_variant_total (fun _ => 0)
    (Experiment.mk "exp" [Variant.mk "a" (1/2) 0 0 [], Variant.mk "b" (1/2) 0 0 []])
    none (1/4) (by simp)

lemma detRandVal_nonneg_lt_one (hash : String → ℤ) (uid name : String) :
    0 ≤ detRandVal hash uid name ∧ detRandVal hash uid name < 1 := by
  have hmod0 : (0 : ℤ) ≤ hash (uid ++ name) % 10000 :=
    Int.emod_nonneg _ (by norm_num)
  have hmod1 : hash (uid ++ name) % 10000 < 10000 :=
    Int.emod_lt_of_pos _ (by norm_num)
  unfold detRandVal
  constructor
  · exact div_nonneg (by exact_mod_cast hmod0) (by norm_num)
  · rw [div_lt_one (by norm_num)]
    exact_mod_cast hmod1

lemma assignVariant_name_eq (hash : String → ℤ) (e₁ e₂ : Experiment)
    (u : Option String) (r₁ r₂ : ℚ)
    (hv : drawnValue hash e₁ u r₁ = drawnValue hash e₂ u r₂)
    (hweq : e₁.variants.map Variant.weight = e₂.variants.map Variant.weight)
    (hnameeq : e₁.variants.map Variant.name = e₂.variants.map Variant.name) :
    ∀ p₁ p₂, assignVariant hash e₁ u r₁ = some p₁ →
      assignVariant hash e₂ u r₂ = some p₂ → p₁.1.name = p₂.1.name := by
  intro p₁ p₂ hp₁ hp₂
  have hlen : e₁.variants.length = e₂.variants.length := by
    have := congrArg List.length hnameeq
    simpa using this
  unfold assignVariant at hp₁ hp₂
  rw [assignLoop_eq_selectIdx, hv, hweq] at hp₁
  rw [assignLoop_eq_selectIdx] at hp₂
  cases hsel : selectIdx (drawnValue hash e₂ u r₂) 0
      (e₂.variants.map Variant.weight) with
  | some i =>
    have hilt : i < e₂.variants.length := by
      have := ((selectIdx_eq_some_iff _ _ 0 i).mp hsel).1
      simpa using this
    rw [hsel] at hp₁ hp₂
    simp only [Option.map_some'] at hp₁ hp₂
    obtain rfl := (Option.some.inj hp₁).symm
    obtain rfl := (Option.some.inj hp₂).symm
    show (e₁.variants.getD i default).name = (e₂.variants.getD i default).name
    exact getD_name_eq_of_map_name_eq _ _ hnameeq i (by omega)
  | none =>
    rw [hsel] at hp₁ hp₂
    simp only [Option.map_none'] at hp₁ hp₂
    by_cases hne₂ : e₂.variants = []
    · have hne₁ : e₁.variants = [] := List.length_eq_zero.mp (by simp [hlen, hne₂])
      rw [hne₁] at hp₁
      exact absurd hp₁ (by simp)
    · have hne₁ : e₁.variants ≠ [] := by
        intro hnil
        exact hne₂ (List.length_eq_zero.mp (by simp [← hlen, hnil]))
      rw [getLast?_eq_some_getD e₁.variants hne₁] at hp₁
      rw [getLast?_eq_some_getD e₂.variants hne₂] at hp₂
      obtain rfl := (Option.some.inj hp₁).symm
      obtain rfl := (Option.some.inj hp₂).symm
      show (e₁.variants.getD (e₁.variants.length - 1) default).name =
        (e₂.variants.getD (e₂.variants.length - 1) default).name
      rw [hlen]
      refine getD_name_eq_of_map_name_eq _ _ hnameeq _ ?_
      have : 0 < e₂.variants.length := List.length_pos.mpr hne₂
      omega

/-- Claim C1 — deterministic assignment for a supplied subject id: the
drawn value is `hash(subject_id + experiment_name) % 10000 / 10000`,
which lies in `[0, 1)`; the selected variant is the first in list order
whose cumulative normalized weight is `≥` that value; and two experiments
constructed with the same name and the same variant names and weights
assign the same-named variant to the same subject id on every call. -/
theorem assign_variant_deterministic (hash : String → ℤ) (uid ename : String)
    (vs₁ vs₂ : List Variant) (e₁ e₂ : Experiment) (rng₁ rng₂ : ℚ)
    (h₁ : (experimentInit ename vs₁).1 = .ok e₁)
    (h₂ : (experimentInit ename vs₂).1 = .ok e₂)
    (hw : vs₁.map Variant.weight = vs₂.map Variant.weight)
    (hn : vs₁.map Variant.name = vs₂.map Variant.name) :
    (0 ≤ detRandVal hash uid ename ∧ detRandVal hash uid ename < 1) ∧
    (∃ i st, firstBucketIdx (detRandVal hash uid ename)
        (e₁.variants.map Variant.weight) = some i ∧
      assignVariant hash e₁ (some uid) rng₁ =
        some ((e₁.variants.getD i default).record_exposure, st)) ∧
    (∀ p₁ p₂, assignVariant hash e₁ (some uid) rng₁ = some p₁ →
      assignVariant hash e₂ (some uid) rng₂ = some p₂ →
      p₁.1.name = p₂.1.name) := by
  have hsum₁ : (e₁.variants.map Variant.weight).sum = 1 :=
    experimentInit_ok_sum_one ename vs₁ e₁ h₁
  obtain ⟨hlen₁, hpos₁, he₁⟩ := (experimentInit_ok_iff ename vs₁ e₁).mp h₁
  obtain ⟨hlen₂, hpos₂, he₂⟩ := (experimentInit_ok_iff ename vs₂ e₂).mp h₂
  have htw : totalWeight vs₁ = totalWeight vs₂ := by
    unfold totalWeight
    rw [hw]
  subst he₁
  subst he₂
  have hrange := detRandVal_nonneg_lt_one hash uid ename
  refine ⟨hrange, ?_, ?_⟩
  · have hlenws : vs₁.length ≤
        ((normalizeWeights vs₁ (totalWeight vs₁)).map Variant.weight).length := by
      simp [normalizeWeights]
    have hnotnone : selectIdx (detRandVal hash uid ename) 0
        ((normalizeWeights vs₁ (totalWeight vs₁)).map Variant.weight) ≠ none := by
      intro hnone
      have hall := (selectIdx_eq_none_iff (detRandVal hash uid ename)
        ((normalizeWeights vs₁ (totalWeight vs₁)).map Variant.weight) 0).mp hnone
      set ws := (normalizeWeights vs₁ (totalWeight vs₁)).map Variant.weight with hws
      have hwslen : 0 < ws.length := by omega
      have := hall (ws.length - 1) (by omega)
      rw [show ws.length - 1 + 1 = ws.length by omega, List.take_length] at this
      exact this (by rw [hsum₁]; linarith [hrange.2])
    obtain ⟨i, hi⟩ := Option.ne_none_iff_exists'.mp hnotnone
    refine ⟨i, Experiment.mk ename ((normalizeWeights vs₁ (totalWeight vs₁)).set i
      (((normalizeWeights vs₁ (totalWeight vs₁)).getD i default).record_exposure)),
      ?_, ?_⟩
    · rw [← selectIdx_zero_eq_firstBucketIdx]
      exact hi
    · unfold assignVariant
      rw [show drawnValue hash
          { name := ename, variants := normalizeWeights vs₁ (totalWeight vs₁) }
          (some uid) rng₁ = detRandVal hash uid ename from rfl]
      rw [assignLoop_eq_selectIdx, hi]
      rfl
  · refine assignVariant_name_eq hash _ _ (some uid) rng₁ rng₂ rfl ?_ ?_
    · simp only [normalizeWeights_map_weight]
      rw [hw, htw]
    · simp only [normalizeWeights_map_name]
      exact hn

/-- Witness for C1 at a concrete input: constant hash `3`, subject `"u"`,
two identically configured two-variant experiments named `"e"`. -/
theorem assign_variant_deterministic_witness :
    (0 ≤ detRandVal (fun _ => 3) "u" "e" ∧
      detRandVal (fun _ => 3) "u" "e" < 1) ∧
    (∃ i st, firstBucketIdx (detRandVal (fun _ => 3) "u" "e")
        ((Experiment.mk "e"
          [Variant.mk "a" (1/2) 0 0 [], Variant.mk "b" (1/2) 0 0 []]).variants.map
            Variant.weight) = some i ∧
      assignVariant (fun _ => 3)
        (Experiment.mk "e"
          [Variant.mk "a" (1/2) 0 0 [], Variant.mk "b" (1/2) 0 0 []])
        (some "u") 0 =
        some (((Experiment.mk "e"
          [Variant.mk "a" (1/2) 0 0 [], Variant.mk "b" (1/2) 0 0 []]).variants.getD i
            default).record_exposure, st)) ∧
    (∀ p₁ p₂, assignVariant (fun _ => 3)
        (Experiment.mk "e"
          [Variant.mk "a" (1/2) 0 0 [], Variant.mk "b" (1/2) 0 0 []])
        (some "u") 0 = some p₁ →
      assignVariant (fun _ => 3)
        (Experiment.mk "e"
          [Variant.mk "a" (1/2) 0 0 [], Variant.mk "b" (1/2) 0 0 []])
        (some "u") 0 = some p₂ →
      p₁.1.name = p₂.1.name) :=
  assign_variant_deterministic (fun _ => 3) "u" "e"
    [Variant.mk "a" 1 0 0 [], Variant.mk "b" 1 0 0 []]
    [Variant.mk "a" 1 0 0 [], Variant.mk "b" 1 0 0 []]
    (Experiment.mk "e" [Variant.mk "a" (1/2) 0 0 [], Variant.mk "b" (1/2) 0 0 []])
    (Experiment.mk "e" [Variant.mk "a" (1/2) 0 0 [], Variant.mk "b" (1/2) 0 0 []])
    0 0
    (by norm_num [experimentInit, totalWeight, normalizeWeights])
    (by norm_num [experimentInit, totalWeight, normalizeWeights])
    rfl rfl

/-! ## The statistics claims -/

lemma wilson_center_margin (p n z : ℝ) (hn : 0 < n) (hp0 : 0 ≤ p)
    (hp1 : p ≤ 1) (hz : 0 ≤ z) :
    |p - (p + z^2 / (2*n)) / (1 + z^2/n)| ≤
      z * Real.sqrt (p*(1-p)/n + z^2/(4*n^2)) / (1 + z^2/n) := by
  have hD : (0:ℝ) < 1 + z^2/n := by positivity
  have hq : (0:ℝ) ≤ p*(1-p) := mul_nonneg hp0 (by linarith)
  have hstep : p - (p + z^2/(2*n)) / (1 + z^2/n) =
      (z^2 * (p - 1/2) / n) / (1 + z^2/n) := by
    field_simp
    ring
  rw [hstep, abs_div, abs_of_pos hD, div_le_div_iff_of_pos_right hD]
  have h1 : |z^2 * (p - 1/2) / n| = Real.sqrt ((z^2 * (p - 1/2) / n)^2) :=
    (Real.sqrt_sq_eq_abs _).symm
  have h2 : z * Real.sqrt (p*(1-p)/n + z^2/(4*n^2)) =
      Real.sqrt (z^2 * (p*(1-p)/n + z^2/(4*n^2))) := by
    rw [Real.sqrt_mul (sq_nonneg z), Real.sqrt_sq hz]
  rw [h1, h2]
  apply Real.sqrt_le_sqrt
  rw [← sub_nonneg]
  have hexp : z^2 * (p*(1-p)/n + z^2/(4*n^2)) - (z^2*(p - 1/2)/n)^2
      = (z^2 * (p*(1-p)) * (4*n + 4*z^2)) / (4*n^2) := by
    field_simp
    ring
  rw [hexp]
  have h4n : (0:ℝ) ≤ 4*n + 4*z^2 := by positivity
  exact div_nonneg (mul_nonneg (mul_nonneg (sq_nonneg z) hq) h4n) (by positivity)

/-- Claim C6 — `calculate_confidence_interval` raises exactly on
non-positive exposures, conversions outside `[0, exposures]`, or a
confidence level outside `(0, 1)`; on every valid input (`norm.ppf` being
non-negative at the queried upper-tail quantile) it returns bounds clamped
to `[0, 1]` that contain the point estimate `conversions / exposures`. -/
theorem calculate_confidence_interval_spec (ppf : ℝ → ℝ)
    (conversions exposures : ℤ) (cl : ℝ)
    (hz : 0 ≤ ppf (1 - (1 - cl) / 2)) :
    ((∃ msg, calculate_confidence_interval ppf conversions exposures cl =
        .error msg) ↔
      (exposures ≤ 0 ∨ conversions < 0 ∨ conversions > exposures ∨
        ¬(0 < cl ∧ cl < 1))) ∧
    (∀ lo hi, calculate_confidence_interval ppf conversions exposures cl =
        .ok (lo, hi) →
      0 ≤ lo ∧ lo ≤ (conversions : ℝ) / (exposures : ℝ) ∧
      (conversions : ℝ) / (exposures : ℝ) ≤ hi ∧ hi ≤ 1) := by
  constructor
  · simp only [calculate_confidence_interval]
    split_ifs with h1 h2 h3
    · exact iff_of_true ⟨_, rfl⟩ (Or.inl h1)
    · refine iff_of_true ⟨_, rfl⟩ (Or.inr ?_)
      tauto
    · refine iff_of_false ?_ ?_
      · rintro ⟨msg, hmsg⟩
        exact absurd hmsg (by simp)
      · push_neg at h2
        rintro (h | h | h | h)
        · exact h1 h
        · omega
        · omega
        · exact h h3
    · exact iff_of_true ⟨_, rfl⟩ (Or.inr (Or.inr (Or.inr h3)))
  · intro lo hi h
    simp only [calculate_confidence_interval] at h
    split_ifs at h with h1 h2 h3
    obtain ⟨hlo, hhi⟩ := Prod.mk.inj (Except.ok.inj h)
    push_neg at h1 h2
    have hepos : (0:ℝ) < (exposures : ℝ) := by exact_mod_cast h1
    have hp0 : (0:ℝ) ≤ (conversions : ℝ) / (exposures : ℝ) :=
      div_nonneg (by exact_mod_cast h2.1) hepos.le
    have hp1 : (conversions : ℝ) / (exposures : ℝ) ≤ 1 := by
      rw [div_le_one hepos]
      exact_mod_cast h2.2
    have hmain := wilson_center_margin ((conversions : ℝ) / (exposures : ℝ))
      (exposures : ℝ) (ppf (1 - (1 - cl) / 2)) hepos hp0 hp1 hz
    rw [abs_le] at hmain
    subst hlo
    subst hhi
    refine ⟨le_max_left 0 _, max_le hp0 (by linarith [hmain.2]), ?_,
      min_le_left 1 _⟩
    exact le_min hp1 (by linarith [hmain.1])

/-- Witness for C6 at a concrete input: `ppf ≡ 1`, 1 conversion over 2
exposures at confidence level `1/2`. -/
theorem calculate_confidence_interval_spec_witness :
    ((∃ msg, calculate_confidence_interval (fun _ => 1) 1 2 (1/2) =
        .error msg) ↔
      ((2:ℤ) ≤ 0 ∨ (1:ℤ) < 0 ∨ (1:ℤ) > 2 ∨ ¬((0:ℝ) < 1/2 ∧ (1:ℝ)/2 < 1))) ∧
    (∀ lo hi, calculate_confidence_interval (fun _ => 1) 1 2 (1/2) =
        .ok (lo, hi) →
      0 ≤ lo ∧ lo ≤ ((1:ℤ) : ℝ) / ((2:ℤ) : ℝ) ∧
      ((1:ℤ) : ℝ) / ((2:ℤ) : ℝ) ≤ hi ∧ hi ≤ 1) :=
  calculate_confidence_interval_spec (fun _ => 1) 1 2 (1/2) (by norm_num)

/-- Counterexample to claim C7 as stated: at conversions `-1` and `0`
over exposures `1` and `1`, both exposure counts are positive, yet
`p_pooled = -1/2` makes the `math.sqrt` argument `-3/2`, so the source
raises `ValueError: math domain error` — the biconditional "fails iff
either exposure count is ≤ 0" is false at this input. -/
theorem z_test_proportions_error_iff_cex :
    ¬ ((∃ msg, z_test_proportions (fun _ => 0) (-1) 1 0 1 true = .error msg) ↔
      ((1:ℤ) ≤ 0 ∨ (1:ℤ) ≤ 0)) := by
  intro h
  have herr : z_test_proportions (fun _ => 0) (-1) 1 0 1 true =
      .error "math domain error" := by
    norm_num [z_test_proportions, pooledSqArg, pooledProportion]
  exact absurd (h.mp ⟨_, herr⟩) (by norm_num)

/-- Claim C7 (amended) — `z_test_proportions` raises exactly when an
exposure count is non-positive or when the pooled-proportion expression
handed to `math.sqrt` is negative (Python's `math domain error`,
reachable e.g. for a negative conversion count); for valid exposures with
a non-negative `math.sqrt` argument it returns `(0, 1, 0)` when the
pooled standard error is exactly `0`, and otherwise the z-score, the
p-value and the pooled-proportion standard error. -/
theorem z_test_proportions_domain_spec (cdf : ℝ → ℝ) (ca ea cb eb : ℤ)
    (tt : Bool) :
    ((∃ msg, z_test_proportions cdf ca ea cb eb tt = .error msg) ↔
      ea ≤ 0 ∨ eb ≤ 0 ∨ pooledSqArg ca cb ea eb < 0) ∧
    (0 < ea → 0 < eb → 0 ≤ pooledSqArg ca cb ea eb →
      pooledStdError ca cb ea eb = 0 →
      z_test_proportions cdf ca ea cb eb tt = .ok (0, 1, 0)) ∧
    (0 < ea → 0 < eb → 0 ≤ pooledSqArg ca cb ea eb →
      pooledStdError ca cb ea eb ≠ 0 →
      z_test_proportions cdf ca ea cb eb tt = .ok
        (((ca : ℝ)/(ea : ℝ) - (cb : ℝ)/(eb : ℝ)) / pooledStdError ca cb ea eb,
         (if tt then
            2 * (1 - cdf |((ca : ℝ)/(ea : ℝ) - (cb : ℝ)/(eb : ℝ)) /
              pooledStdError ca cb ea eb|)
          else
            1 - cdf (((ca : ℝ)/(ea : ℝ) - (cb : ℝ)/(eb : ℝ)) /
              pooledStdError ca cb ea eb)),
         pooledStdError ca cb ea eb)) := by
  refine ⟨?_, ?_, ?_⟩
  · simp only [z_test_proportions]
    split_ifs with h1 h2 h3
    · refine iff_of_true ⟨_, rfl⟩ ?_
      tauto
    · exact iff_of_true ⟨_, rfl⟩ (Or.inr (Or.inr h2))
    · refine iff_of_false ?_ ?_
      · rintro ⟨msg, hmsg⟩
        exact absurd hmsg (by simp)
      · rintro (h | h | h) <;> tauto
    · refine iff_of_false ?_ ?_
      · rintro ⟨msg, hmsg⟩
        exact absurd hmsg (by simp)
      · rintro (h | h | h) <;> tauto
  · intro hea heb harg hse
    simp only [z_test_proportions]
    rw [if_neg (by omega), if_neg (not_lt.mpr harg), if_pos hse]
  · intro hea heb harg hse
    simp only [z_test_proportions]
    rw [if_neg (by omega), if_neg (not_lt.mpr harg), if_neg hse]

end ABTesting
